import Mathlib

/-!
Verification development for the symmetry-adapted reciprocal-space basis
engine of the pscfpp repository (pssp_gpu `Basis.h`, pspg `Domain.tpp`).

The repository ships the declaration header `src/pssp_gpu/basis/Basis.h`
and the orchestrator `src/pspg/field/Domain.tpp`.  The implementation file
`Basis.tpp` is not part of the provided sources, so the basis construction
and the two conversion routines are modelled from the specification
(sections 3, 4.1-4.4 of the spec), restricted - as the header itself
proposes - to the identity space group, with a one-parameter (cubic-like)
unit-cell metric.  `Domain` logic is translated directly from `Domain.tpp`.
-/

set_option maxRecDepth 100000

namespace Pscf

/-- Complex numbers with rational components, used for DFT coefficients
and per-wave phase factors (exact stand-in for `std::complex<double>`). -/
structure Cx where
  re : ℚ
  im : ℚ
deriving DecidableEq, Repr

namespace Cx

def add (z w : Cx) : Cx := ⟨z.re + w.re, z.im + w.im⟩

def mul (z w : Cx) : Cx := ⟨z.re * w.re - z.im * w.im, z.re * w.im + z.im * w.re⟩

def conj (z : Cx) : Cx := ⟨z.re, -z.im⟩

def zero : Cx := ⟨0, 0⟩

/-- Scale a complex number by a rational. -/
def smul (q : ℚ) (z : Cx) : Cx := ⟨q * z.re, q * z.im⟩

/-- Squared magnitude of a complex number. -/
def normSq (z : Cx) : ℚ := z.re * z.re + z.im * z.im

def one : Cx := ⟨1, 0⟩

end Cx

instance : Inhabited Cx := ⟨Cx.zero⟩

/-- Model of `Basis<D>::Wave` from `Basis.h`: one entry per wavevector of
the full mesh.  The `partnerId` field models the GPU lookup table
`partnerIdTable_` declared in `Basis.h` (index of the wave at the negated
wavevector), used to resolve values of `implicit` waves by conjugate
symmetry. -/
structure Wave where
  coeff : Cx
  sqNorm : ℚ
  indicesDft : List ℕ
  starId : ℕ
  implicit : Bool
  partnerId : ℕ
deriving DecidableEq, Repr

instance : Inhabited Wave := ⟨⟨Cx.one, 0, [], 0, false, 0⟩⟩

/-- Model of `Basis<D>::Star` from `Basis.h`. -/
structure Star where
  size : ℕ
  beginId : ℕ
  endId : ℕ
  invertFlag : ℤ
  signFlag : ℤ
  cancel : Bool
deriving DecidableEq, Repr

instance : Inhabited Star := ⟨⟨0, 0, 0, 0, 1, false⟩⟩

/-- Model of `Basis<D>` from `Basis.h`: the Wave table, the Star table and
the three stored counters. -/
structure Basis where
  waves : List Wave
  stars : List Star
  nWave_ : ℕ
  nStar_ : ℕ
  nBasis_ : ℕ
deriving DecidableEq, Repr

namespace Basis

/-- Accessor `Basis<D>::nWave`. -/
def nWave (b : Basis) : ℕ := b.nWave_

/-- Accessor `Basis<D>::nStar`. -/
def nStar (b : Basis) : ℕ := b.nStar_

/-- Accessor `Basis<D>::nBasis`. -/
def nBasis (b : Basis) : ℕ := b.nBasis_

/-- Modelled from the spec: accessor `Basis<D>::wave(int i)` returns
`waves_[i]`; the container access fails on an out-of-range index (the
`DArray` container implementation is not among the provided sources; the
spec states the accessors fail on out-of-range indices).  Failure is
modelled as `none`. -/
def wave (b : Basis) (i : ℤ) : Option Wave :=
  if i < 0 then none else b.waves.get? i.toNat

/-- Modelled from the spec: accessor `Basis<D>::star(int i)`, as `wave`. -/
def star (b : Basis) (i : ℤ) : Option Star :=
  if i < 0 then none else b.stars.get? i.toNat

/-- Number of stars whose cancel flag is false. -/
def countNonCancel (ss : List Star) : ℕ :=
  (ss.filter (fun s => !s.cancel)).length

/-- Sum of star sizes. -/
def sumSizes (ss : List Star) : ℕ := (ss.map Star.size).sum

/-!  Conversion routines.

Modelled from the spec (sections 4.2, 4.3, 9): `Basis.tpp` is not among the
provided sources.  The components-to-DFT direction is a per-wave scatter:
each non-implicit wave's DFT slot receives the mixing coefficient of its
star multiplied by the wave's stored phase factor; slots of implicit waves
are not written (they are represented by conjugate symmetry).  Following
the convention the spec fixes in section 9, the cosine (real) component is
assigned to the `invertFlag = +1` member of an inversion pair and the sine
(imaginary) component to the `invertFlag = -1` member; a star closed under
inversion carries a pure real component.  The DFT-to-components direction
reduces each non-cancelled star over its contiguous wave range, resolving
implicit waves through their conjugate partner, and normalizes by the star
size. -/

/-- Per-star scalar coefficients: the j-th entry is the coefficient of
star j, where non-cancelled stars consume successive entries of the
component array `c` and cancelled stars contribute zero. -/
def compOfStars : List Star → List ℚ → List ℚ
  | [], _ => []
  | s :: ss, c =>
    if s.cancel then 0 :: compOfStars ss c
    else c.headD 0 :: compOfStars ss c.tail

/-- Mixing coefficient of star `j` (a complex scalar): real component for
a closed star, cosine/sine split for an inversion-related pair. -/
def mixC (ss : List Star) (comps : List ℚ) (j : ℕ) : Cx :=
  let s := ss.getD j default
  if s.invertFlag = 0 then ⟨comps.getD j 0, 0⟩
  else if s.invertFlag = 1 then ⟨comps.getD j 0, -(comps.getD (j+1) 0)⟩
  else ⟨comps.getD (j-1) 0, comps.getD j 0⟩

/-- Modelled from the spec: `Basis<D>::convertFieldComponentsToDft`.
Produces one complex slot per wave; implicit waves' slots are left zero
(they are not written directly). -/
def convertFieldComponentsToDft (b : Basis) (c : List ℚ) : List Cx :=
  let comps := compOfStars b.stars c
  b.waves.map (fun w =>
    if w.implicit then Cx.zero
    else Cx.mul (mixC b.stars comps w.starId) w.coeff)

/-- Value of the wave stored at index `i` in the DFT array: direct for an
explicit wave, conjugate of the partner slot for an implicit wave. -/
def waveVal (waves : List Wave) (dft : List Cx) (i : ℕ) : Cx :=
  match waves.get? i with
  | none => Cx.zero
  | some w =>
    if w.implicit then Cx.conj (dft.getD w.partnerId Cx.zero)
    else dft.getD i Cx.zero

/-- Contribution of the wave at index `i` to its star's reduction. -/
def contrib (waves : List Wave) (dft : List Cx) (i : ℕ) : Cx :=
  match waves.get? i with
  | none => Cx.zero
  | some w => Cx.mul (waveVal waves dft i) (Cx.conj w.coeff)

/-- Sum over the member waves of star `s` (a contiguous range of the wave
table) of their conjugate-weighted DFT values. -/
def starSum (waves : List Wave) (dft : List Cx) (s : Star) : Cx :=
  ((List.range s.size).map
    (fun t => contrib waves dft (s.beginId + t))).foldr Cx.add Cx.zero

/-- Component value extracted from star `j`: real part for closed and
`+1` stars, imaginary part for `-1` stars, normalized by star size. -/
def extract (b : Basis) (dft : List Cx) (j : ℕ) : ℚ :=
  let s := b.stars.getD j default
  (if s.invertFlag = -1 then (starSum b.waves dft s).im
   else (starSum b.waves dft s).re) / (s.size : ℚ)

/-- Modelled from the spec: `Basis<D>::convertFieldDftToComponents`.
Produces one real coefficient per non-cancelled star, in star order. -/
def convertFieldDftToComponents (b : Basis) (dft : List Cx) : List ℚ :=
  ((List.range b.stars.length).filter
      (fun j => !(b.stars.getD j default).cancel)).map (extract b dft)

/-!  Well-formedness of a built basis.

Modelled from the spec (sections 3, 4.1): invariants that `makeBasis`
establishes for the Wave and Star tables - contiguous star ranges,
consistent stored counters, adjacency of inversion-related pairs,
normalization of the per-star phase factors, and conjugate partners for
implicit waves. -/

/-- Sum of squared magnitudes of the phase factors of the member waves of
star `j`. -/
def normSumStar (b : Basis) (j : ℕ) : ℚ :=
  let s := b.stars.getD j default
  ((List.range s.size).map
    (fun t => Cx.normSq (b.waves.getD (s.beginId + t) default).coeff)).sum

/-- Star-table invariants for star index `j`. -/
def starOK (b : Basis) (j : ℕ) : Prop :=
  let s := b.stars.getD j default
  1 ≤ s.size ∧
  s.endId + 1 = s.beginId + s.size ∧
  s.beginId + s.size ≤ b.waves.length ∧
  (s.invertFlag = 0 ∨ s.invertFlag = 1 ∨ s.invertFlag = -1) ∧
  (s.invertFlag = 1 →
    j + 1 < b.stars.length ∧ (b.stars.getD (j+1) default).invertFlag = -1) ∧
  (s.invertFlag = -1 →
    1 ≤ j ∧ (b.stars.getD (j-1) default).invertFlag = 1) ∧
  (∀ t ∈ List.range s.size,
    (b.waves.getD (s.beginId + t) default).starId = j) ∧
  (s.cancel = false → normSumStar b j = (s.size : ℚ))

/-- Wave-table invariants for wave index `i`: an implicit wave has an
explicit partner carrying the conjugate phase factor, belonging to the
same star for a closed star and to the adjacent paired star otherwise. -/
def waveOK (b : Basis) (i : ℕ) : Prop :=
  let w := b.waves.getD i default
  w.implicit = true →
    w.partnerId < b.waves.length ∧
    (b.waves.getD w.partnerId default).implicit = false ∧
    (b.waves.getD w.partnerId default).coeff = Cx.conj w.coeff ∧
    (b.waves.getD w.partnerId default).starId =
      (if (b.stars.getD w.starId default).invertFlag = 1 then w.starId + 1
       else if (b.stars.getD w.starId default).invertFlag = -1 then w.starId - 1
       else w.starId)

/-- Modelled from the spec: the invariants established by
`Basis<D>::makeBasis` (spec sections 3 and 4.1) that the conversion
routines rely on. -/
def WellFormed (b : Basis) : Prop :=
  b.nWave_ = b.waves.length ∧
  b.nStar_ = b.stars.length ∧
  b.nBasis_ = countNonCancel b.stars ∧
  (∀ j ∈ List.range b.stars.length, starOK b j) ∧
  (∀ i ∈ List.range b.waves.length, waveOK b i)

instance (b : Basis) : Decidable (WellFormed b) := by
  unfold WellFormed starOK waveOK normSumStar
  infer_instance

end Basis

/-!  Mesh enumeration and the modelled `makeBasis` construction.

Modelled from the spec (section 4.1) and the header's own proposal that
the initial implementation functions correctly only for the identity
space group: every wavevector forms its own singleton orbit; an orbit is
closed under inversion iff its wavevector is self-inverse modulo the
mesh, and otherwise the orbit and its inversion image are emitted as an
adjacent `+1` / `-1` pair; stars are sorted by non-increasing squared
norm (stable, pairs kept adjacent).  The unit cell is a one-parameter
cubic-like cell: the squared norm of a wavevector is the squared length
of its minimum image divided by the square of the cell parameter. -/

/-- All grid points of a mesh with the given dimensions, in row-major
order (first index most significant), each point a list of coordinates. -/
def meshPoints : List ℕ → List (List ℕ)
  | [] => [[]]
  | d :: ds => ((List.range d).map (fun i => (meshPoints ds).map (fun t => i :: t))).flatten

/-- Mesh size: the number of grid points. -/
def meshSize (dims : List ℕ) : ℕ := dims.prod

/-- Negation of a wavevector modulo the mesh. -/
def negW (dims k : List ℕ) : List ℕ :=
  List.zipWith (fun d x => (d - x) % d) dims k

/-- Minimum image of one DFT index coordinate: the representative of the
residue class with the smallest magnitude. -/
def minImage (d x : ℕ) : ℤ :=
  if 2 * x ≤ d then (x : ℤ) else (x : ℤ) - (d : ℤ)

/-- Squared length (integer part) of the minimum image of a wavevector. -/
def normSqZ (dims k : List ℕ) : ℤ :=
  (List.zipWith (fun d x => minImage d x * minImage d x) dims k).sum

/-- Squared norm of a wavevector under a cubic-like cell of parameter `a`. -/
def sqNormQ (a : ℚ) (dims k : List ℕ) : ℚ := (normSqZ dims k : ℚ) / (a * a)

/-- Derivative of `sqNormQ` with respect to the cell parameter `a`. -/
def dSqNormQ (a : ℚ) (dims k : List ℕ) : ℚ :=
  (-2 * (normSqZ dims k : ℚ)) / (a * a * a)

/-- Is this wavevector stored implicitly in the real-field DFT array?
The real-to-complex transform stores only the half mesh with last
coordinate at most `d / 2`. -/
def isImplicitW (dims k : List ℕ) : Bool :=
  decide (dims.getLastD 1 / 2 < k.getLastD 0)

/-- Group the mesh points into inversion units, in enumeration order: a
self-inverse point forms a unit of its own, any other point forms a unit
with its inversion image; points already placed are skipped. -/
def buildUnitsGo (dims : List ℕ) : List (List ℕ) → List (List ℕ) → List (List (List ℕ))
  | [], _ => []
  | k :: rest, vis =>
    if k ∈ vis then buildUnitsGo dims rest vis
    else
      let nk := negW dims k
      if nk = k then [k] :: buildUnitsGo dims rest (k :: vis)
      else [k, nk] :: buildUnitsGo dims rest (k :: nk :: vis)

def buildUnits (dims : List ℕ) : List (List (List ℕ)) :=
  buildUnitsGo dims (meshPoints dims) []

/-- Ordering of inversion units used to sort stars: non-increasing squared
norm of the unit's leading wavevector. -/
def unitGE (dims : List ℕ) (u v : List (List ℕ)) : Prop :=
  normSqZ dims (v.headD []) ≤ normSqZ dims (u.headD [])

instance (dims : List ℕ) : DecidableRel (unitGE dims) := by
  unfold unitGE; infer_instance

instance (dims : List ℕ) : IsTotal (List (List ℕ)) (unitGE dims) :=
  ⟨fun u v => le_total (normSqZ dims (v.headD [])) (normSqZ dims (u.headD []))⟩

instance (dims : List ℕ) : IsTrans (List (List ℕ)) (unitGE dims) :=
  ⟨fun _ _ _ h1 h2 => le_trans h2 h1⟩

/-- Shape invariant of one inversion unit produced by `buildUnits`: a
singleton unit holds a self-inverse wavevector; a pair unit holds a
wavevector and its inversion image, distinct, with equal squared norms
and inversion an involution on them. -/
def UnitValid (dims : List ℕ) (u : List (List ℕ)) : Prop :=
  (∃ k, u = [k] ∧ negW dims k = k) ∨
  (∃ k, u = [k, negW dims k] ∧ negW dims (negW dims k) = k ∧ negW dims k ≠ k ∧
    normSqZ dims (negW dims k) = normSqZ dims k)

/-- Inversion structure of star `j` of the assembled tables: a closed
star carries `invertFlag = 0` and a self-inverse wavevector; otherwise
the star is the first (`+1`) or second (`-1`) member of an adjacent pair
whose wavevectors are images of each other under inversion. -/
def InvSpec (dims : List ℕ) (ws : List Wave) (ss : List Star) (j : ℕ) : Prop :=
  ((ss.getD j default).invertFlag = 0 ∧
    negW dims ((ws.getD j default).indicesDft) = (ws.getD j default).indicesDft) ∨
  ((ss.getD j default).invertFlag = 1 ∧ j + 1 < ss.length ∧
    (ss.getD (j+1) default).invertFlag = -1 ∧
    (ws.getD (j+1) default).indicesDft = negW dims ((ws.getD j default).indicesDft) ∧
    (ws.getD j default).indicesDft = negW dims ((ws.getD (j+1) default).indicesDft) ∧
    negW dims ((ws.getD j default).indicesDft) ≠ (ws.getD j default).indicesDft ∧
    normSqZ dims ((ws.getD (j+1) default).indicesDft) =
      normSqZ dims ((ws.getD j default).indicesDft)) ∨
  ((ss.getD j default).invertFlag = -1 ∧ 1 ≤ j ∧
    (ss.getD (j-1) default).invertFlag = 1 ∧
    (ws.getD j default).indicesDft = negW dims ((ws.getD (j-1) default).indicesDft) ∧
    (ws.getD (j-1) default).indicesDft = negW dims ((ws.getD j default).indicesDft) ∧
    negW dims ((ws.getD j default).indicesDft) ≠ (ws.getD j default).indicesDft)

/-- Lexicographic comparison of integer index vectors, most significant
index first: true when `u` is greater than or equal to `v`. -/
def lexGEb : List ℕ → List ℕ → Bool
  | [], [] => true
  | [], _ :: _ => true
  | _ :: _, [] => true
  | x :: xs, y :: ys =>
    if y < x then true else if x < y then false else lexGEb xs ys

/-- Consecutive stars with equal squared norm are ordered with
lexicographically non-increasing characteristic wavevectors (stated for
singleton stars, whose characteristic wave sits at the star's index). -/
def TieLexDesc (b : Basis) : Prop :=
  ∀ j ∈ List.range b.stars.length, j + 1 < b.stars.length →
    (b.waves.getD j default).sqNorm = (b.waves.getD (j+1) default).sqNorm →
    lexGEb ((b.waves.getD j default).indicesDft)
      ((b.waves.getD (j+1) default).indicesDft) = true

/-- Consecutive stars with equal squared norm are ordered with
lexicographically non-decreasing characteristic wavevectors. -/
def TieLexAsc (b : Basis) : Prop :=
  ∀ j ∈ List.range b.stars.length, j + 1 < b.stars.length →
    (b.waves.getD j default).sqNorm = (b.waves.getD (j+1) default).sqNorm →
    lexGEb ((b.waves.getD (j+1) default).indicesDft)
      ((b.waves.getD j default).indicesDft) = true

instance (b : Basis) : Decidable (TieLexDesc b) := by
  unfold TieLexDesc; infer_instance

instance (b : Basis) : Decidable (TieLexAsc b) := by
  unfold TieLexAsc; infer_instance

/-- Wave-table entry for wavevector `k`, member of star `sId`
(identity group: phase factor one).  The partner id is filled in by a
second pass. -/
def mkWave (dims : List ℕ) (a : ℚ) (k : List ℕ) (sId : ℕ) : Wave :=
  { coeff := Cx.one
    sqNorm := sqNormQ a dims k
    indicesDft := k
    starId := sId
    implicit := isImplicitW dims k
    partnerId := 0 }

/-- Star-table entry for a singleton star beginning (and ending) at wave
index `off`. -/
def mkStar (off : ℕ) (flag : ℤ) : Star :=
  { size := 1
    beginId := off
    endId := off
    invertFlag := flag
    signFlag := if flag = -1 then -1 else 1
    cancel := false }

/-- Flatten the sorted inversion units into the Wave and Star tables: a
closed unit yields one star with `invertFlag = 0`; a pair unit yields two
adjacent stars with `invertFlag = +1` then `-1`. -/
def assembleGo (dims : List ℕ) (a : ℚ) :
    List (List (List ℕ)) → ℕ → List Wave × List Star
  | [], _ => ([], [])
  | u :: us, off =>
    match u with
    | [k] =>
      let r := assembleGo dims a us (off + 1)
      (mkWave dims a k off :: r.1, mkStar off 0 :: r.2)
    | [k1, k2] =>
      let r := assembleGo dims a us (off + 2)
      (mkWave dims a k1 off :: mkWave dims a k2 (off + 1) :: r.1,
       mkStar off 1 :: mkStar (off + 1) (-1) :: r.2)
    | _ => assembleGo dims a us off

/-- Fill in each wave's partner id: the index of the wave at the negated
wavevector. -/
def fillPartners (dims : List ℕ) (ws : List Wave) : List Wave :=
  ws.map (fun w =>
    { w with partnerId :=
        ((ws.findIdx? (fun w2 => w2.indicesDft = negW dims w.indicesDft)).getD 0) })

/-- Modelled from the spec: `Basis<D>::makeBasis` for the identity space
group (the only group the header's proposal supports), on a mesh with the
given dimensions and a one-parameter cubic-like unit cell with parameter
`a`.  Builds the Wave and Star tables and the stored counters. -/
def makeBasis (dims : List ℕ) (a : ℚ) : Basis :=
  let us := (buildUnits dims).insertionSort (unitGE dims)
  let p := assembleGo dims a us 0
  let ws := fillPartners dims p.1
  { waves := ws
    stars := p.2
    nWave_ := ws.length
    nStar_ := p.2.length
    nBasis_ := Basis.countNonCancel p.2 }

/-- Modelled from the spec: `Basis<D>::update` recomputes each wave's
squared norm under the new unit-cell parameter without rebuilding
orbits. -/
def Basis.update (b : Basis) (dims : List ℕ) (a : ℚ) : Basis :=
  { b with waves := b.waves.map (fun w =>
      { w with sqNorm := sqNormQ a dims w.indicesDft }) }

/-- Representative wave index of star `s` for the derivative routine: the
first wave for `invertFlag = 0` or `+1`, the last wave for `-1`
(following the characteristic-wave convention documented in `Basis.h`). -/
def repId (s : Star) : ℕ :=
  if s.invertFlag = -1 then s.endId else s.beginId

/-- Modelled from the spec: `Basis<D>::makeDksq` computes, for each star,
the derivative of the representative squared norm with respect to the
cell parameter, reading exactly one representative wave per star. -/
def makeDksq (b : Basis) (dims : List ℕ) (a : ℚ) : List ℚ :=
  b.stars.map (fun s =>
    dSqNormQ a dims (b.waves.getD (repId s) default).indicesDft)

/-- Member wavevectors of star `j` of basis `b` (the contiguous range of
the wave table the star owns). -/
def starVectors (b : Basis) (j : ℕ) : List (List ℕ) :=
  let s := b.stars.getD j default
  (List.range s.size).map
    (fun t => (b.waves.getD (s.beginId + t) default).indicesDft)

/-!  Domain model, translated from `src/pspg/field/Domain.tpp`. -/

/-- Lattice system of the unit cell (`UnitCell<D>::LatticeSystem`);
`Null` is the unset value. -/
inductive Lattice where
  | Null
  | Lamellar
  | Square
  | Hexagonal
  | Cubic
deriving DecidableEq, Repr

/-- Number of independent parameters of a lattice system (the unit-cell
classes are not among the provided sources; modelled with one parameter
for each of the simple lattice systems used here). -/
def Lattice.nParam : Lattice → ℕ
  | .Null => 0
  | _ => 1

/-- Modelled from the spec: a unit cell is a lattice system plus its
parameter list; it is initialized when the lattice is set and the
parameters match the lattice's parameter count. -/
structure Cell where
  lattice : Lattice
  params : List ℚ
deriving DecidableEq, Repr

def Cell.isInit (c : Cell) : Bool :=
  decide (c.lattice ≠ Lattice.Null) && decide (c.params.length = c.lattice.nParam)

/-- Errors raised by the `UTIL_CHECK` assertions in `Domain.tpp`. -/
inductive DomErr where
  | noFileMaster
  | meshZero
  | latticeNull
  | latticeMismatch
  | paramCount
  | noParams
  | ucNotInitialized
  | waveListNotAllocated
deriving DecidableEq, Repr

/-- State of a `Domain<D>` object (`Domain.h` members used by
`Domain.tpp`): unit cell, mesh, basis, wave-list flags and the
`isInitialized_` flag. -/
structure DomainState where
  lattice : Lattice
  parameters : List ℚ
  meshDims : List ℕ
  hasFileMaster : Bool
  waveListAllocated : Bool
  hasMinimumImages : Bool
  ksqComputed : Bool
  basis : Option Basis
  isInitialized : Bool
deriving DecidableEq, Repr

namespace DomainState

/-- The unit cell currently stored in the domain. -/
def cell (d : DomainState) : Cell := ⟨d.lattice, d.parameters⟩

/-- Translation of `Domain<D>::makeBasis` from `Domain.tpp`: checks mesh
size, lattice, parameter count and unit-cell initialization; constructs
the basis if it is not initialized; computes minimum images. -/
def domainMakeBasis (d : DomainState) : Except DomErr DomainState :=
  if meshSize d.meshDims = 0 then .error .meshZero
  else if d.lattice = Lattice.Null then .error .latticeNull
  else if d.lattice.nParam = 0 then .error .noParams
  else if d.cell.isInit = false then .error .ucNotInitialized
  else
    let d1 := if d.basis = none
      then { d with basis := some (makeBasis d.meshDims (d.parameters.headD 1)) }
      else d
    if d1.waveListAllocated = false then .error .waveListNotAllocated
    else .ok { d1 with hasMinimumImages := true }

/-- Translation of `Domain<D>::setUnitCell(UnitCell<D> const &)` from
`Domain.tpp`: a `Null` stored lattice adopts the cell's lattice, a
non-`Null` stored lattice must match the cell's lattice (`UTIL_CHECK`);
then the cell is stored, the basis is made only if it is not already
initialized, and the wave-list squared norms are recomputed. -/
def setUnitCellCell (d : DomainState) (c : Cell) : Except DomErr DomainState :=
  if d.lattice ≠ Lattice.Null ∧ d.lattice ≠ c.lattice then .error .latticeMismatch
  else
    let d1 := { d with lattice := c.lattice, parameters := c.params }
    match (if d1.basis = none then domainMakeBasis d1 else .ok d1) with
    | .error e => .error e
    | .ok d2 => .ok { d2 with ksqComputed := true }

/-- Translation of `Domain<D>::setUnitCell(LatticeSystem, FSArray)` from
`Domain.tpp`. -/
def setUnitCellLat (d : DomainState) (lat : Lattice) (p : List ℚ) :
    Except DomErr DomainState :=
  setUnitCellCell d ⟨lat, p⟩

/-- Translation of `Domain<D>::setUnitCell(FSArray<double, 6> const &)`
from `Domain.tpp`: the parameter-only overload; the lattice must already
be set and the parameter count must match. -/
def setUnitCellParams (d : DomainState) (p : List ℚ) : Except DomErr DomainState :=
  if d.lattice = Lattice.Null then .error .latticeNull
  else if d.lattice.nParam ≠ p.length then .error .paramCount
  else
    let d1 := { d with parameters := p }
    match (if d1.basis = none then domainMakeBasis d1 else .ok d1) with
    | .error e => .error e
    | .ok d2 => .ok { d2 with ksqComputed := true }

/-- Input of `Domain<D>::readParameters`: the mesh dimensions and the
lattice system read from the parameter file (the group name is read but
only the identity group is modelled). -/
structure ReadInput where
  mesh : List ℕ
  lattice : Lattice
deriving DecidableEq, Repr

/-- Translation of `Domain<D>::readParameters` from `Domain.tpp`: checks
the file master, reads and checks the mesh, reads the lattice and sets
the unit cell without parameters, allocates the wave list, reads the
group, makes the basis only if the unit cell reports initialized, and
finally sets `isInitialized_` unconditionally. -/
def readParameters (d : DomainState) (inp : ReadInput) : Except DomErr DomainState :=
  if d.hasFileMaster = false then .error .noFileMaster
  else if meshSize inp.mesh = 0 then .error .meshZero
  else
    let c : Cell := ⟨inp.lattice, []⟩
    if inp.lattice = Lattice.Null then .error .latticeNull
    else if inp.lattice.nParam = 0 then .error .noParams
    else
      let d1 := { d with meshDims := inp.mesh, lattice := inp.lattice,
                         parameters := [], waveListAllocated := true }
      let d2 := if c.isInit
        then { d1 with basis := some (makeBasis inp.mesh 1) }
        else d1
      .ok { d2 with isInitialized := true }

/-- Basis table stored in the resulting state of a domain operation, or
`none` when the operation failed. -/
def basisOf : Except DomErr DomainState → Option (Option Basis)
  | .ok d => some d.basis
  | .error _ => none

end DomainState

/-! ## Lemmas and theorems -/

theorem Cx.conj_conj (z : Cx) : Cx.conj (Cx.conj z) = z := by
  cases z; simp [Cx.conj]

theorem Cx.mul_conj_self (z : Cx) : Cx.mul z (Cx.conj z) = ⟨Cx.normSq z, 0⟩ := by
  cases z with
  | mk a b => simp only [Cx.mul, Cx.conj, Cx.normSq, Cx.mk.injEq]; exact ⟨by ring, by ring⟩

theorem Cx.mul_assoc (x y z : Cx) : Cx.mul (Cx.mul x y) z = Cx.mul x (Cx.mul y z) := by
  cases x; cases y; cases z
  simp only [Cx.mul, Cx.mk.injEq]; exact ⟨by ring, by ring⟩

theorem Cx.conj_mul (x y : Cx) : Cx.conj (Cx.mul x y) = Cx.mul (Cx.conj x) (Cx.conj y) := by
  cases x; cases y
  simp only [Cx.mul, Cx.conj, Cx.mk.injEq]; exact ⟨by ring, by ring⟩

theorem Cx.mul_zero_right (z : Cx) : Cx.mul z Cx.zero = Cx.zero := by
  cases z; simp [Cx.mul, Cx.zero]

theorem Cx.mul_real_add (z : Cx) (a b : ℚ) :
    Cx.mul z ⟨a + b, 0⟩ = Cx.add (Cx.mul z ⟨a, 0⟩) (Cx.mul z ⟨b, 0⟩) := by
  cases z; simp only [Cx.mul, Cx.add, Cx.mk.injEq]; exact ⟨by ring, by ring⟩

theorem getD_map_lt {α β : Type} (l : List α) (f : α → β) (i : ℕ)
    (h : i < l.length) (d : β) (d' : α) : (l.map f).getD i d = f (l.getD i d') := by
  simp [List.getD_eq_getElem?_getD, List.getElem?_map, List.getElem?_eq_getElem h]

theorem get?_eq_some_getD {α : Type} (l : List α) (i : ℕ) (h : i < l.length) (d : α) :
    l.get? i = some (l.getD i d) := by
  simp [List.get?_eq_getElem?, List.getElem?_eq_getElem h, List.getD_eq_getElem?_getD]

theorem foldr_map_mul_real (M : Cx) (l : List ℚ) :
    ((l.map (fun q => Cx.mul M ⟨q, 0⟩)).foldr Cx.add Cx.zero) = Cx.mul M ⟨l.sum, 0⟩ := by
  induction l with
  | nil =>
    show Cx.zero = Cx.mul M ⟨0, 0⟩
    rw [show (⟨0, 0⟩ : Cx) = Cx.zero from rfl, Cx.mul_zero_right]
  | cons q l ih =>
    simp only [List.map_cons, List.foldr_cons, ih, List.sum_cons, Cx.mul_real_add]

namespace Basis

/-- Value of the mixing coefficient at a star closed under inversion. -/
theorem mixC_flag_zero (ss : List Star) (comps : List ℚ) (j : ℕ)
    (h : (ss.getD j default).invertFlag = 0) :
    mixC ss comps j = ⟨comps.getD j 0, 0⟩ := by
  simp only [mixC]
  rw [h]
  norm_num

/-- Value of the mixing coefficient at the first star of an inversion
pair. -/
theorem mixC_flag_one (ss : List Star) (comps : List ℚ) (j : ℕ)
    (h : (ss.getD j default).invertFlag = 1) :
    mixC ss comps j = ⟨comps.getD j 0, -(comps.getD (j+1) 0)⟩ := by
  simp only [mixC]
  rw [h]
  norm_num

/-- Value of the mixing coefficient at the second star of an inversion
pair. -/
theorem mixC_flag_neg (ss : List Star) (comps : List ℚ) (j : ℕ)
    (h : (ss.getD j default).invertFlag = -1) :
    mixC ss comps j = ⟨comps.getD (j-1) 0, comps.getD j 0⟩ := by
  simp only [mixC]
  rw [h]
  norm_num

/-- Conjugating the mixing coefficient of the partner star returns the
mixing coefficient of the star itself, for all three inversion-flag
cases. -/
theorem conj_mixC (ss : List Star) (comps : List ℚ) (j : ℕ)
    (hflag : (ss.getD j default).invertFlag = 0 ∨ (ss.getD j default).invertFlag = 1 ∨
      (ss.getD j default).invertFlag = -1)
    (hp1 : (ss.getD j default).invertFlag = 1 → (ss.getD (j+1) default).invertFlag = -1)
    (hm1 : (ss.getD j default).invertFlag = -1 →
      1 ≤ j ∧ (ss.getD (j-1) default).invertFlag = 1) :
    Cx.conj (mixC ss comps
      (if (ss.getD j default).invertFlag = 1 then j + 1
       else if (ss.getD j default).invertFlag = -1 then j - 1 else j)) =
    mixC ss comps j := by
  rcases hflag with h | h | h
  · rw [if_neg (by rw [h]; decide), if_neg (by rw [h]; decide),
        mixC_flag_zero ss comps j h]
    simp [Cx.conj]
  · have h2 := hp1 h
    rw [if_pos h, mixC_flag_neg ss comps (j+1) h2, mixC_flag_one ss comps j h]
    simp [Cx.conj]
  · obtain ⟨hj1, h2⟩ := hm1 h
    have hj' : j - 1 + 1 = j := Nat.sub_add_cancel hj1
    rw [if_neg (by rw [h]; decide), if_pos h, mixC_flag_one ss comps (j-1) h2,
        mixC_flag_neg ss comps j h, hj']
    simp [Cx.conj]

/-- Contribution of the `t`-th member wave of star `j` to the reduction
of the scattered DFT array: the star's mixing coefficient times the
squared magnitude of the wave's phase factor. -/
theorem contrib_toDft (b : Basis) (hWF : b.WellFormed) (c : List ℚ) (j t : ℕ)
    (hj : j < b.stars.length) (ht : t < (b.stars.getD j default).size) :
    contrib b.waves (convertFieldComponentsToDft b c)
        ((b.stars.getD j default).beginId + t) =
      Cx.mul (mixC b.stars (compOfStars b.stars c) j)
        ⟨Cx.normSq ((b.waves.getD ((b.stars.getD j default).beginId + t) default).coeff),
         0⟩ := by
  obtain ⟨hcw, hcs, hcb, hstars, hwaves⟩ := hWF
  obtain ⟨hsz, hend, hrange, hflag, hp1, hm1, hsid, hnorm⟩ := hstars j (List.mem_range.mpr hj)
  have hilt : (b.stars.getD j default).beginId + t < b.waves.length :=
    lt_of_lt_of_le (Nat.add_lt_add_left ht _) hrange
  set i := (b.stars.getD j default).beginId + t with hi
  set w := b.waves.getD i default with hw
  have hget : b.waves.get? i = some w := get?_eq_some_getD _ _ hilt _
  have hsidw : w.starId = j := hsid t (List.mem_range.mpr ht)
  have hdft : ∀ m, m < b.waves.length →
      (convertFieldComponentsToDft b c).getD m Cx.zero =
        (if (b.waves.getD m default).implicit then Cx.zero
         else Cx.mul (mixC b.stars (compOfStars b.stars c)
            (b.waves.getD m default).starId) (b.waves.getD m default).coeff) := by
    intro m hm
    unfold convertFieldComponentsToDft
    exact getD_map_lt _ _ _ hm _ _
  have hc0 : contrib b.waves (convertFieldComponentsToDft b c) i =
      Cx.mul (waveVal b.waves (convertFieldComponentsToDft b c) i) (Cx.conj w.coeff) := by
    unfold contrib
    rw [hget]
  rw [hc0]
  cases himp : w.implicit with
  | false =>
    have hv : waveVal b.waves (convertFieldComponentsToDft b c) i =
        Cx.mul (mixC b.stars (compOfStars b.stars c) j) w.coeff := by
      unfold waveVal
      rw [hget]
      simp only [himp, Bool.false_eq_true, if_false]
      rw [hdft i hilt, ← hw, himp]
      simp only [Bool.false_eq_true, if_false, hsidw]
    rw [hv, Cx.mul_assoc, Cx.mul_conj_self]
  | true =>
    have hwv := hwaves i (List.mem_range.mpr hilt)
    obtain ⟨hplt, hpexp, hpco, hpsid⟩ := hwv himp
    have hv : waveVal b.waves (convertFieldComponentsToDft b c) i =
        Cx.conj (Cx.mul (mixC b.stars (compOfStars b.stars c)
            (b.waves.getD w.partnerId default).starId)
          (b.waves.getD w.partnerId default).coeff) := by
      unfold waveVal
      rw [hget]
      simp only [himp, if_true]
      rw [hdft w.partnerId hplt]
      simp only [hpexp, Bool.false_eq_true, if_false]
    rw [hsidw] at hpsid
    rw [hv, hpco, hpsid, Cx.conj_mul, Cx.conj_conj,
        conj_mixC b.stars (compOfStars b.stars c) j hflag
          (fun h => (hp1 h).2) hm1,
        Cx.mul_assoc, Cx.mul_conj_self]

/-- Reduction of star `j` over the scattered DFT array. -/
theorem starSum_toDft (b : Basis) (hWF : b.WellFormed) (c : List ℚ) (j : ℕ)
    (hj : j < b.stars.length) :
    starSum b.waves (convertFieldComponentsToDft b c) (b.stars.getD j default) =
      Cx.mul (mixC b.stars (compOfStars b.stars c) j) ⟨normSumStar b j, 0⟩ := by
  unfold starSum normSumStar
  rw [List.map_congr_left
    (fun t ht => contrib_toDft b hWF c j t hj (List.mem_range.mp ht))]
  rw [show (fun t => Cx.mul (mixC b.stars (compOfStars b.stars c) j)
      ⟨Cx.normSq ((b.waves.getD ((b.stars.getD j default).beginId + t) default).coeff), 0⟩) =
    ((fun q => Cx.mul (mixC b.stars (compOfStars b.stars c) j) ⟨q, 0⟩) ∘
      (fun t => Cx.normSq
        ((b.waves.getD ((b.stars.getD j default).beginId + t) default).coeff))) from rfl]
  rw [← List.map_map, foldr_map_mul_real]

/-- Extracting the component of a non-cancelled star from the scattered
DFT array recovers the star's scalar coefficient. -/
theorem extract_toDft (b : Basis) (hWF : b.WellFormed) (c : List ℚ) (j : ℕ)
    (hj : j < b.stars.length) (hnc : (b.stars.getD j default).cancel = false) :
    extract b (convertFieldComponentsToDft b c) j =
      (compOfStars b.stars c).getD j 0 := by
  have hWF' := hWF
  obtain ⟨hcw, hcs, hcb, hstars, hwaves⟩ := hWF'
  obtain ⟨hsz, hend, hrange, hflag, hp1, hm1, hsid, hnorm⟩ := hstars j (List.mem_range.mpr hj)
  have hnorm' := hnorm hnc
  have hsz0 : (b.stars.getD j default).size ≠ 0 := by omega
  have hszQ : ((b.stars.getD j default).size : ℚ) ≠ 0 := Nat.cast_ne_zero.mpr hsz0
  show (if (b.stars.getD j default).invertFlag = -1
      then (starSum b.waves (convertFieldComponentsToDft b c)
        (b.stars.getD j default)).im
      else (starSum b.waves (convertFieldComponentsToDft b c)
        (b.stars.getD j default)).re) / ((b.stars.getD j default).size : ℚ) =
    (compOfStars b.stars c).getD j 0
  rw [starSum_toDft b hWF c j hj, hnorm']
  rcases hflag with h | h | h
  · rw [if_neg (by rw [h]; decide), mixC_flag_zero _ _ _ h]
    show ((compOfStars b.stars c).getD j 0 * ((b.stars.getD j default).size : ℚ) -
      0 * 0) / ((b.stars.getD j default).size : ℚ) = _
    rw [div_eq_iff hszQ]; ring
  · rw [if_neg (by rw [h]; decide), mixC_flag_one _ _ _ h]
    show ((compOfStars b.stars c).getD j 0 * ((b.stars.getD j default).size : ℚ) -
      -((compOfStars b.stars c).getD (j+1) 0) * 0) /
        ((b.stars.getD j default).size : ℚ) = _
    rw [div_eq_iff hszQ]; ring
  · rw [if_pos h, mixC_flag_neg _ _ _ h]
    show ((compOfStars b.stars c).getD (j-1) 0 * 0 +
      (compOfStars b.stars c).getD j 0 * ((b.stars.getD j default).size : ℚ)) /
        ((b.stars.getD j default).size : ℚ) = _
    rw [div_eq_iff hszQ]; ring

end Basis

/-- Recovering the list of per-star coefficients of the non-cancelled
stars returns the original component array. -/
theorem comps_recover : ∀ (ss : List Star) (c : List ℚ),
    c.length = Basis.countNonCancel ss →
    ((List.range ss.length).filter (fun j => !(ss.getD j default).cancel)).map
      (fun j => (Basis.compOfStars ss c).getD j 0) = c := by
  intro ss
  induction ss with
  | nil =>
    intro c hc
    simp [Basis.countNonCancel] at hc
    subst hc
    simp
  | cons s ss ih =>
    intro c hc
    rw [List.length_cons, List.range_succ_eq_map]
    rw [List.filter_cons, List.filter_map]
    cases hcan : s.cancel with
    | true =>
      have hc' : c.length = Basis.countNonCancel ss := by
        simpa [Basis.countNonCancel, List.filter_cons, hcan] using hc
      simp only [List.getD_cons_zero, hcan, Bool.not_true, Bool.false_eq_true, if_false]
      rw [List.map_map]
      have : ((fun j => (Basis.compOfStars (s :: ss) c).getD j 0) ∘ Nat.succ) =
          (fun j => (Basis.compOfStars ss c).getD j 0) := by
        funext j
        simp [Basis.compOfStars, hcan, List.getD_cons_succ]
      rw [show ((fun j => !(List.getD (s :: ss) j default).cancel) ∘ Nat.succ) =
          (fun j => !(List.getD ss j default).cancel) from by
        funext j; simp [List.getD_cons_succ]]
      rw [this, ih c hc']
    | false =>
      have hc' : c.length = Basis.countNonCancel ss + 1 := by
        simpa [Basis.countNonCancel, List.filter_cons, hcan] using hc
      cases c with
      | nil => simp at hc'
      | cons c0 ctl =>
        have hctl : ctl.length = Basis.countNonCancel ss := by
          simpa using hc'
        simp only [List.getD_cons_zero, hcan, Bool.not_false, if_true]
        rw [List.map_cons, List.map_map]
        have h1 : (Basis.compOfStars (s :: ss) (c0 :: ctl)).getD 0 0 = c0 := by
          simp [Basis.compOfStars, hcan]
        have h2 : ((fun j => (Basis.compOfStars (s :: ss) (c0 :: ctl)).getD j 0) ∘
            Nat.succ) = (fun j => (Basis.compOfStars ss ctl).getD j 0) := by
          funext j
          simp [Basis.compOfStars, hcan, List.getD_cons_succ]
        rw [show ((fun j => !(List.getD (s :: ss) j default).cancel) ∘ Nat.succ) =
            (fun j => !(List.getD ss j default).cancel) from by
          funext j; simp [List.getD_cons_succ]]
        rw [h1, h2, ih ctl hctl]

/-- C1: for every basis built by `makeBasis` (characterized by the
construction invariants `WellFormed`) and every real coefficient array
`c` of length `nBasis()`, converting `c` to a DFT array with
`convertFieldComponentsToDft` and converting the result back with
`convertFieldDftToComponents` returns `c` exactly. -/
theorem convert_roundTrip (b : Basis) (c : List ℚ)
    (hWF : b.WellFormed) (hc : c.length = b.nBasis) :
    Basis.convertFieldDftToComponents b (Basis.convertFieldComponentsToDft b c) = c := by
  have hc' : c.length = Basis.countNonCancel b.stars := by
    rw [hc]; exact hWF.2.2.1
  unfold Basis.convertFieldDftToComponents
  rw [List.map_congr_left (g := fun j => (Basis.compOfStars b.stars c).getD j 0) ?_]
  · exact comps_recover b.stars c hc'
  · intro j hjf
    obtain ⟨hjr, hjc⟩ := List.mem_filter.mp hjf
    exact Basis.extract_toDft b hWF c j (List.mem_range.mp hjr)
      (by simpa using hjc)

/-- Witness for C1: a concrete well-formed basis (the modelled identity
basis on a mesh of two points) and a concrete coefficient array. -/
theorem convert_roundTrip_witness :
    (makeBasis [2] 1).WellFormed ∧ ([3, 5] : List ℚ).length = (makeBasis [2] 1).nBasis ∧
    Basis.convertFieldDftToComponents (makeBasis [2] 1)
      (Basis.convertFieldComponentsToDft (makeBasis [2] 1) [3, 5]) = [3, 5] :=
  ⟨by with_unfolding_all decide, by with_unfolding_all decide,
   convert_roundTrip (makeBasis [2] 1) [3, 5] (by with_unfolding_all decide)
     (by with_unfolding_all decide)⟩

/-- Sum of star sizes of the assembled tables equals the number of
assembled waves. -/
theorem assembleGo_sumSizes (dims : List ℕ) (a : ℚ) :
    ∀ (us : List (List (List ℕ))) (off : ℕ),
      Basis.sumSizes (assembleGo dims a us off).2 = (assembleGo dims a us off).1.length := by
  intro us
  induction us with
  | nil => intro off; rfl
  | cons u us ih =>
    intro off
    rcases u with _ | ⟨k1, _ | ⟨k2, _ | ⟨k3, tl⟩⟩⟩
    · simpa [assembleGo] using ih off
    · have h := ih (off + 1)
      simp [assembleGo, Basis.sumSizes, mkStar] at h ⊢
      omega
    · have h := ih (off + 2)
      simp [assembleGo, Basis.sumSizes, mkStar] at h ⊢
      omega
    · simpa [assembleGo] using ih off

/-- C2: after `makeBasis` completes, the sum of `star.size` over all
stars equals `nWave()`, and the number of stars whose cancel flag is
false equals `nBasis()`. -/
theorem makeBasis_counts (dims : List ℕ) (a : ℚ) :
    Basis.sumSizes (makeBasis dims a).stars = (makeBasis dims a).nWave ∧
    Basis.countNonCancel (makeBasis dims a).stars = (makeBasis dims a).nBasis := by
  constructor
  · show Basis.sumSizes (assembleGo dims a
        ((buildUnits dims).insertionSort (unitGE dims)) 0).2 = _
    show _ = (fillPartners dims (assembleGo dims a
        ((buildUnits dims).insertionSort (unitGE dims)) 0).1).length
    rw [fillPartners, List.length_map]
    exact assembleGo_sumSizes dims a _ 0
  · rfl

/-- C3 counterexample: `Domain<D>::setUnitCell` invoked with a lattice
type different from the stored one fails with a fatal check instead of
rebuilding the basis. -/
theorem setUnitCell_lattice_change_fails :
    DomainState.setUnitCellCell
      { lattice := Lattice.Cubic, parameters := [1], meshDims := [2],
        hasFileMaster := true, waveListAllocated := true,
        hasMinimumImages := true, ksqComputed := false,
        basis := some (makeBasis [2] 1), isInitialized := true }
      ⟨Lattice.Hexagonal, [1]⟩ = .error DomErr.latticeMismatch := by
  with_unfolding_all rfl

/-- C3 (amended): for a domain whose lattice is set, `setUnitCell` with
a different lattice type fails with a fatal error (no rebuild), while
with the matching lattice type it succeeds and never rebuilds an
already-initialized basis (so a parameter-only change does not trigger a
rebuild). -/
theorem setUnitCell_lattice_guard (d : DomainState) (c : Cell) (b0 : Basis)
    (hlat : d.lattice ≠ Lattice.Null) (hb : d.basis = some b0) :
    (c.lattice ≠ d.lattice →
      DomainState.setUnitCellCell d c = .error DomErr.latticeMismatch) ∧
    (c.lattice = d.lattice →
      DomainState.basisOf (DomainState.setUnitCellCell d c) = some (some b0)) := by
  constructor
  · intro hne
    unfold DomainState.setUnitCellCell
    rw [if_pos ⟨hlat, fun hh => hne hh.symm⟩]
  · intro heq
    simp only [DomainState.setUnitCellCell]
    rw [if_neg (by
      intro hcon
      exact hcon.2 heq.symm)]
    rw [if_neg (by simp [hb])]
    simp [DomainState.basisOf, hb]

/-- Witness for C3 (amended): a concrete domain with a Cubic lattice and
a built basis. -/
theorem setUnitCell_lattice_guard_witness :
    ((Lattice.Cubic ≠ Lattice.Null) ∧
     (some (makeBasis [2] 1) = some (makeBasis [2] 1))) ∧
    ((Lattice.Hexagonal ≠ Lattice.Cubic →
      DomainState.setUnitCellCell
        { lattice := Lattice.Cubic, parameters := [1], meshDims := [2],
          hasFileMaster := true, waveListAllocated := true,
          hasMinimumImages := true, ksqComputed := false,
          basis := some (makeBasis [2] 1), isInitialized := true }
        ⟨Lattice.Hexagonal, [1]⟩ = .error DomErr.latticeMismatch) ∧
     (Lattice.Hexagonal = Lattice.Cubic →
      DomainState.basisOf (DomainState.setUnitCellCell
        { lattice := Lattice.Cubic, parameters := [1], meshDims := [2],
          hasFileMaster := true, waveListAllocated := true,
          hasMinimumImages := true, ksqComputed := false,
          basis := some (makeBasis [2] 1), isInitialized := true }
        ⟨Lattice.Hexagonal, [1]⟩) = some (some (makeBasis [2] 1)))) :=
  ⟨⟨by decide, rfl⟩,
   setUnitCell_lattice_guard
     { lattice := Lattice.Cubic, parameters := [1], meshDims := [2],
       hasFileMaster := true, waveListAllocated := true,
       hasMinimumImages := true, ksqComputed := false,
       basis := some (makeBasis [2] 1), isInitialized := true }
     ⟨Lattice.Hexagonal, [1]⟩ (makeBasis [2] 1) (by decide) rfl⟩

/-- C4: a pure unit-cell parameter change through
`Domain<D>::setUnitCell(parameters)` leaves the basis object untouched,
and `Basis<D>::update` leaves the whole star table and the orbit
membership fields of every wave unchanged (only the stored squared norms
may change). -/
theorem paramChange_preserves_orbits (d : DomainState) (p : List ℚ) (b0 : Basis)
    (d' : DomainState) (dims : List ℕ) (a2 : ℚ)
    (hb : d.basis = some b0)
    (h : DomainState.setUnitCellParams d p = .ok d') :
    d'.basis = some b0 ∧
    (b0.update dims a2).stars = b0.stars ∧
    (b0.update dims a2).waves.map Wave.starId = b0.waves.map Wave.starId ∧
    (b0.update dims a2).waves.map Wave.indicesDft = b0.waves.map Wave.indicesDft ∧
    (b0.update dims a2).waves.map Wave.implicit = b0.waves.map Wave.implicit ∧
    (b0.update dims a2).waves.map Wave.coeff = b0.waves.map Wave.coeff := by
  refine ⟨?_, rfl, ?_, ?_, ?_, ?_⟩
  · simp only [DomainState.setUnitCellParams] at h
    by_cases h1 : d.lattice = Lattice.Null
    · rw [if_pos h1] at h; exact absurd h (by simp)
    · rw [if_neg h1] at h
      by_cases h2 : d.lattice.nParam ≠ p.length
      · rw [if_pos h2] at h; exact absurd h (by simp)
      · rw [if_neg h2] at h
        rw [if_neg (by simp [hb])] at h
        simp only [Except.ok.injEq] at h
        subst h
        exact hb
  all_goals simp only [Basis.update, List.map_map]; rfl

/-- Witness for C4: a concrete domain with a built basis and a concrete
parameter change. -/
theorem paramChange_preserves_orbits_witness :
    (({ lattice := Lattice.Cubic, parameters := [1], meshDims := [2],
        hasFileMaster := true, waveListAllocated := true,
        hasMinimumImages := true, ksqComputed := false,
        basis := some (makeBasis [2] 1), isInitialized := true } :
          DomainState).basis = some (makeBasis [2] 1)) ∧
    (DomainState.setUnitCellParams
      { lattice := Lattice.Cubic, parameters := [1], meshDims := [2],
        hasFileMaster := true, waveListAllocated := true,
        hasMinimumImages := true, ksqComputed := false,
        basis := some (makeBasis [2] 1), isInitialized := true } [2] =
      Except.ok
        { lattice := Lattice.Cubic, parameters := [2], meshDims := [2],
          hasFileMaster := true, waveListAllocated := true,
          hasMinimumImages := true, ksqComputed := true,
          basis := some (makeBasis [2] 1), isInitialized := true }) ∧
    ({ lattice := Lattice.Cubic, parameters := [2], meshDims := [2],
        hasFileMaster := true, waveListAllocated := true,
        hasMinimumImages := true, ksqComputed := true,
        basis := some (makeBasis [2] 1), isInitialized := true } :
          DomainState).basis = some (makeBasis [2] 1) ∧
    ((makeBasis [2] 1).update [2] 2).stars = (makeBasis [2] 1).stars ∧
    ((makeBasis [2] 1).update [2] 2).waves.map Wave.starId =
      (makeBasis [2] 1).waves.map Wave.starId ∧
    ((makeBasis [2] 1).update [2] 2).waves.map Wave.indicesDft =
      (makeBasis [2] 1).waves.map Wave.indicesDft ∧
    ((makeBasis [2] 1).update [2] 2).waves.map Wave.implicit =
      (makeBasis [2] 1).waves.map Wave.implicit ∧
    ((makeBasis [2] 1).update [2] 2).waves.map Wave.coeff =
      (makeBasis [2] 1).waves.map Wave.coeff :=
  ⟨rfl, by with_unfolding_all rfl,
   paramChange_preserves_orbits
     { lattice := Lattice.Cubic, parameters := [1], meshDims := [2],
       hasFileMaster := true, waveListAllocated := true,
       hasMinimumImages := true, ksqComputed := false,
       basis := some (makeBasis [2] 1), isInitialized := true } [2]
     (makeBasis [2] 1)
     { lattice := Lattice.Cubic, parameters := [2], meshDims := [2],
       hasFileMaster := true, waveListAllocated := true,
       hasMinimumImages := true, ksqComputed := true,
       basis := some (makeBasis [2] 1), isInitialized := true } [2] 2 rfl
     (by with_unfolding_all rfl)⟩

/-- C5: `Domain<D>::makeBasis` fails when the mesh size is zero or the
unit-cell lattice type is unset; the failing check produces no state, so
no basis tables are built. -/
theorem domainMakeBasis_fails (d : DomainState)
    (h : meshSize d.meshDims = 0 ∨ d.lattice = Lattice.Null) :
    DomainState.domainMakeBasis d = .error DomErr.meshZero ∨
    DomainState.domainMakeBasis d = .error DomErr.latticeNull := by
  unfold DomainState.domainMakeBasis
  rcases h with h | h
  · left; rw [if_pos h]
  · by_cases hm : meshSize d.meshDims = 0
    · left; rw [if_pos hm]
    · right; rw [if_neg hm, if_pos h]

/-- Witness for C5: a domain with a zero-sized mesh. -/
theorem domainMakeBasis_fails_witness :
    (meshSize [0] = 0 ∨ Lattice.Cubic = Lattice.Null) ∧
    (DomainState.domainMakeBasis
        { lattice := Lattice.Cubic, parameters := [1], meshDims := [0],
          hasFileMaster := true, waveListAllocated := true,
          hasMinimumImages := false, ksqComputed := false,
          basis := none, isInitialized := false } = .error DomErr.meshZero ∨
     DomainState.domainMakeBasis
        { lattice := Lattice.Cubic, parameters := [1], meshDims := [0],
          hasFileMaster := true, waveListAllocated := true,
          hasMinimumImages := false, ksqComputed := false,
          basis := none, isInitialized := false } = .error DomErr.latticeNull) :=
  ⟨Or.inl (by decide),
   domainMakeBasis_fails _ (Or.inl (by decide))⟩

/-- C6: the accessors `wave(i)` and `star(i)` fail (return no value) on
every out-of-range index. -/
theorem accessors_out_of_range (b : Basis) (i : ℤ)
    (hw : b.nWave_ = b.waves.length) (hs : b.nStar_ = b.stars.length)
    (h1 : i < 0 ∨ (b.nWave : ℤ) ≤ i) (h2 : i < 0 ∨ (b.nStar : ℤ) ≤ i) :
    b.wave i = none ∧ b.star i = none := by
  constructor
  · unfold Basis.wave
    rcases h1 with h | h
    · rw [if_pos h]
    · rw [if_neg (by unfold Basis.nWave at h; omega)]
      apply List.get?_eq_none.mpr
      unfold Basis.nWave at h
      omega
  · unfold Basis.star
    rcases h2 with h | h
    · rw [if_pos h]
    · rw [if_neg (by unfold Basis.nStar at h; omega)]
      apply List.get?_eq_none.mpr
      unfold Basis.nStar at h
      omega

/-- Witness for C6: an out-of-range negative index on a concrete basis. -/
theorem accessors_out_of_range_witness :
    ((makeBasis [2] 1).nWave_ = (makeBasis [2] 1).waves.length) ∧
    ((makeBasis [2] 1).nStar_ = (makeBasis [2] 1).stars.length) ∧
    ((-1 : ℤ) < 0 ∨ ((makeBasis [2] 1).nWave : ℤ) ≤ -1) ∧
    ((-1 : ℤ) < 0 ∨ ((makeBasis [2] 1).nStar : ℤ) ≤ -1) ∧
    ((makeBasis [2] 1).wave (-1) = none ∧ (makeBasis [2] 1).star (-1) = none) :=
  ⟨by with_unfolding_all decide, by with_unfolding_all decide,
   Or.inl (by decide), Or.inl (by decide),
   accessors_out_of_range (makeBasis [2] 1) (-1)
     (by with_unfolding_all decide) (by with_unfolding_all decide)
     (Or.inl (by decide)) (Or.inl (by decide))⟩

/-- C10: `Domain<D>::readParameters` can return successfully with the
domain marked initialized while the basis tables are still unbuilt: on
this path the unit cell has a lattice but no parameters, so it does not
report initialized and `makeBasis` is skipped, yet `isInitialized_` is
set to true unconditionally. -/
theorem readParameters_initialized_without_basis (d : DomainState)
    (inp : DomainState.ReadInput) (d' : DomainState)
    (h : DomainState.readParameters d inp = .ok d') :
    d'.isInitialized = true ∧ d'.basis = d.basis := by
  simp only [DomainState.readParameters] at h
  by_cases h1 : d.hasFileMaster = false
  · rw [if_pos h1] at h; exact absurd h (by simp)
  · rw [if_neg h1] at h
    by_cases h2 : meshSize inp.mesh = 0
    · rw [if_pos h2] at h; exact absurd h (by simp)
    · rw [if_neg h2] at h
      by_cases h3 : inp.lattice = Lattice.Null
      · rw [if_pos h3] at h; exact absurd h (by simp)
      · rw [if_neg h3] at h
        by_cases h4 : inp.lattice.nParam = 0
        · rw [if_pos h4] at h; exact absurd h (by simp)
        · rw [if_neg h4] at h
          have hinit : Cell.isInit ⟨inp.lattice, []⟩ = false := by
            unfold Cell.isInit
            simp only [List.length_nil, Bool.and_eq_false_iff]
            right
            simpa using fun hh => h4 hh.symm
          rw [hinit] at h
          simp only [Bool.false_eq_true, if_false, Except.ok.injEq] at h
          subst h
          exact ⟨rfl, rfl⟩

/-- Witness for C10: a fresh domain reading a Cubic lattice ends up
initialized with no basis built. -/
theorem readParameters_initialized_without_basis_witness :
    (DomainState.readParameters
      { lattice := Lattice.Null, parameters := [], meshDims := [],
        hasFileMaster := true, waveListAllocated := false,
        hasMinimumImages := false, ksqComputed := false,
        basis := none, isInitialized := false } ⟨[2], Lattice.Cubic⟩ =
      Except.ok
        { lattice := Lattice.Cubic, parameters := [], meshDims := [2],
          hasFileMaster := true, waveListAllocated := true,
          hasMinimumImages := false, ksqComputed := false,
          basis := none, isInitialized := true }) ∧
    (({ lattice := Lattice.Cubic, parameters := [], meshDims := [2],
        hasFileMaster := true, waveListAllocated := true,
        hasMinimumImages := false, ksqComputed := false,
        basis := none, isInitialized := true } : DomainState).isInitialized = true ∧
     ({ lattice := Lattice.Cubic, parameters := [], meshDims := [2],
        hasFileMaster := true, waveListAllocated := true,
        hasMinimumImages := false, ksqComputed := false,
        basis := none, isInitialized := true } : DomainState).basis =
       ({ lattice := Lattice.Null, parameters := [], meshDims := [],
          hasFileMaster := true, waveListAllocated := false,
          hasMinimumImages := false, ksqComputed := false,
          basis := none, isInitialized := false } : DomainState).basis) :=
  ⟨by with_unfolding_all rfl,
   readParameters_initialized_without_basis
     { lattice := Lattice.Null, parameters := [], meshDims := [],
       hasFileMaster := true, waveListAllocated := false,
       hasMinimumImages := false, ksqComputed := false,
       basis := none, isInitialized := false } ⟨[2], Lattice.Cubic⟩
     { lattice := Lattice.Cubic, parameters := [], meshDims := [2],
       hasFileMaster := true, waveListAllocated := true,
       hasMinimumImages := false, ksqComputed := false,
       basis := none, isInitialized := true } (by with_unfolding_all rfl)⟩

/-- Coordinates of a mesh point are bounded by the mesh dimensions. -/
theorem mem_meshPoints_lt : ∀ (dims k : List ℕ), k ∈ meshPoints dims →
    List.Forall₂ (fun x d => x < d) k dims := by
  intro dims
  induction dims with
  | nil =>
    intro k hk
    simp [meshPoints] at hk
    subst hk
    exact List.Forall₂.nil
  | cons d ds ih =>
    intro k hk
    simp only [meshPoints, List.mem_flatten, List.mem_map, List.mem_range] at hk
    obtain ⟨l, ⟨i, hi, rfl⟩, hkl⟩ := hk
    obtain ⟨t, ht, rfl⟩ := List.mem_map.mp hkl
    exact List.Forall₂.cons hi (ih t ht)

/-- Negation modulo the mesh keeps a coordinate in range. -/
theorem negmod_lt {d x : ℕ} (h : x < d) : (d - x) % d < d :=
  Nat.mod_lt _ (by omega)

/-- Negation modulo the mesh is an involution on one coordinate. -/
theorem negmod_self {d x : ℕ} (h : x < d) : (d - (d - x) % d) % d = x := by
  rcases Nat.eq_zero_or_pos x with rfl | hx
  · rw [Nat.sub_zero, Nat.mod_self, Nat.sub_zero, Nat.mod_self]
  · have h1 : (d - x) % d = d - x := Nat.mod_eq_of_lt (by omega)
    rw [h1]
    have h2 : d - (d - x) = x := by omega
    rw [h2]
    exact Nat.mod_eq_of_lt h

/-- The squared minimum image of a coordinate is invariant under
negation modulo the mesh. -/
theorem minImage_negmod {d x : ℕ} (h : x < d) :
    minImage d ((d - x) % d) * minImage d ((d - x) % d) =
    minImage d x * minImage d x := by
  rcases Nat.eq_zero_or_pos x with rfl | hx
  · rw [Nat.sub_zero, Nat.mod_self]
  · have h1 : (d - x) % d = d - x := Nat.mod_eq_of_lt (by omega)
    rw [h1]
    unfold minImage
    rcases lt_trichotomy (2 * x) d with h2 | h2 | h2
    · rw [if_pos (by omega : 2 * x ≤ d), if_neg (by omega : ¬ 2 * (d - x) ≤ d)]
      push_cast [Nat.cast_sub h.le]
      ring
    · rw [if_pos (by omega : 2 * x ≤ d), if_pos (by omega : 2 * (d - x) ≤ d)]
      have h3 : d - x = x := by omega
      rw [h3]
    · rw [if_neg (by omega : ¬ 2 * x ≤ d), if_pos (by omega : 2 * (d - x) ≤ d)]
      push_cast [Nat.cast_sub h.le]
      ring

/-- Inversion modulo the mesh keeps a mesh point in the mesh. -/
theorem negW_forall {dims k : List ℕ}
    (h : List.Forall₂ (fun x d => x < d) k dims) :
    List.Forall₂ (fun x d => x < d) (negW dims k) dims := by
  induction h with
  | nil => exact List.Forall₂.nil
  | @cons x d xs ds hxd _ ih => exact List.Forall₂.cons (negmod_lt hxd) ih

/-- Inversion modulo the mesh is an involution on mesh points. -/
theorem negW_negW {dims k : List ℕ}
    (h : List.Forall₂ (fun x d => x < d) k dims) :
    negW dims (negW dims k) = k := by
  induction h with
  | nil => rfl
  | @cons x d xs ds hxd _ ih =>
    show ((d - (d - x) % d) % d) :: negW ds (negW ds xs) = x :: xs
    rw [negmod_self hxd, ih]

/-- Inversion modulo the mesh preserves the integer squared norm. -/
theorem normSqZ_negW {dims k : List ℕ}
    (h : List.Forall₂ (fun x d => x < d) k dims) :
    normSqZ dims (negW dims k) = normSqZ dims k := by
  induction h with
  | nil => rfl
  | @cons x d xs ds hxd _ ih =>
    show (minImage d ((d - x) % d) * minImage d ((d - x) % d)) +
        (List.zipWith (fun d x => minImage d x * minImage d x) ds
          (negW ds xs)).sum =
      (minImage d x * minImage d x) +
        (List.zipWith (fun d x => minImage d x * minImage d x) ds xs).sum
    rw [minImage_negmod hxd]
    have := ih
    unfold normSqZ at this
    rw [this]

/-- Every unit produced by the grouping pass is valid. -/
theorem buildUnitsGo_valid (dims : List ℕ) :
    ∀ (l vis : List (List ℕ)),
    (∀ k ∈ l, List.Forall₂ (fun x d => x < d) k dims) →
    ∀ u ∈ buildUnitsGo dims l vis, UnitValid dims u := by
  intro l
  induction l with
  | nil => intro vis _ u hu; simp [buildUnitsGo] at hu
  | cons k rest ih =>
    intro vis hl u hu
    have hk : List.Forall₂ (fun x d => x < d) k dims := hl k (by simp)
    have hrest : ∀ k' ∈ rest, List.Forall₂ (fun x d => x < d) k' dims :=
      fun k' hk' => hl k' (by simp [hk'])
    unfold buildUnitsGo at hu
    by_cases hv : k ∈ vis
    · rw [if_pos hv] at hu; exact ih vis hrest u hu
    · rw [if_neg hv] at hu
      by_cases hnk : negW dims k = k
      · rw [if_pos hnk] at hu
        rcases List.mem_cons.mp hu with rfl | hu'
        · exact Or.inl ⟨k, rfl, hnk⟩
        · exact ih _ hrest u hu'
      · rw [if_neg hnk] at hu
        rcases List.mem_cons.mp hu with rfl | hu'
        · exact Or.inr ⟨k, rfl, negW_negW hk, hnk, normSqZ_negW hk⟩
        · exact ih _ hrest u hu'

/-- Every unit fed to the assembly pass of `makeBasis` is valid. -/
theorem sortedUnits_valid (dims : List ℕ) :
    ∀ u ∈ (buildUnits dims).insertionSort (unitGE dims), UnitValid dims u :=
  fun u hu =>
    buildUnitsGo_valid dims (meshPoints dims) []
      (fun k hk => mem_meshPoints_lt dims k hk) u
      ((List.perm_insertionSort (unitGE dims) (buildUnits dims)).mem_iff.mp hu)

theorem assembleGo_nil (dims : List ℕ) (a : ℚ) (off : ℕ) :
    assembleGo dims a [] off = ([], []) := rfl

theorem assembleGo_empty_unit (dims : List ℕ) (a : ℚ) (us : List (List (List ℕ)))
    (off : ℕ) : assembleGo dims a ([] :: us) off = assembleGo dims a us off := rfl

theorem assembleGo_single (dims : List ℕ) (a : ℚ) (k : List ℕ)
    (us : List (List (List ℕ))) (off : ℕ) :
    assembleGo dims a ([k] :: us) off =
      (mkWave dims a k off :: (assembleGo dims a us (off+1)).1,
       mkStar off 0 :: (assembleGo dims a us (off+1)).2) := rfl

theorem assembleGo_pair (dims : List ℕ) (a : ℚ) (k1 k2 : List ℕ)
    (us : List (List (List ℕ))) (off : ℕ) :
    assembleGo dims a ([k1, k2] :: us) off =
      (mkWave dims a k1 off :: mkWave dims a k2 (off+1) ::
        (assembleGo dims a us (off+2)).1,
       mkStar off 1 :: mkStar (off+1) (-1) :: (assembleGo dims a us (off+2)).2) := rfl

theorem assembleGo_big_unit (dims : List ℕ) (a : ℚ) (k1 k2 k3 : List ℕ)
    (tl : List (List ℕ)) (us : List (List (List ℕ))) (off : ℕ) :
    assembleGo dims a ((k1 :: k2 :: k3 :: tl) :: us) off =
      assembleGo dims a us off := rfl

/-- The assembly pass produces as many waves as stars (all stars are
singletons for the identity group). -/
theorem assembleGo_length (dims : List ℕ) (a : ℚ) :
    ∀ (us : List (List (List ℕ))) (off : ℕ),
      (assembleGo dims a us off).1.length = (assembleGo dims a us off).2.length := by
  intro us
  induction us with
  | nil => intro off; rfl
  | cons u us ih =>
    intro off
    rcases u with _ | ⟨k1, _ | ⟨k2, _ | ⟨k3, tl⟩⟩⟩
    · rw [assembleGo_empty_unit]; exact ih off
    · rw [assembleGo_single]; simp [ih (off + 1)]
    · rw [assembleGo_pair]; simp [ih (off + 2)]
    · rw [assembleGo_big_unit]; exact ih off

/-- Fields of the assembled singleton stars: size one, contiguous
begin and end indices, not cancelled. -/
theorem assembleGo_star_fields (dims : List ℕ) (a : ℚ) :
    ∀ (us : List (List (List ℕ))) (off j : ℕ),
      j < (assembleGo dims a us off).2.length →
      ((assembleGo dims a us off).2.getD j default).size = 1 ∧
      ((assembleGo dims a us off).2.getD j default).beginId = off + j ∧
      ((assembleGo dims a us off).2.getD j default).endId = off + j ∧
      ((assembleGo dims a us off).2.getD j default).cancel = false := by
  intro us
  induction us with
  | nil => intro off j hj; rw [assembleGo_nil] at hj; simp at hj
  | cons u us ih =>
    intro off j hj
    rcases u with _ | ⟨k1, _ | ⟨k2, _ | ⟨k3, tl⟩⟩⟩
    · rw [assembleGo_empty_unit] at hj ⊢; exact ih off j hj
    · rw [assembleGo_single] at hj ⊢
      simp only [List.length_cons] at hj
      rcases j with _ | j'
      · simp [mkStar]
      · have h := ih (off + 1) j' (by omega)
        simp only [List.getD_cons_succ]
        exact ⟨h.1, by rw [h.2.1]; omega, by rw [h.2.2.1]; omega, h.2.2.2⟩
    · rw [assembleGo_pair] at hj ⊢
      simp only [List.length_cons] at hj
      rcases j with _ | (_ | j')
      · simp [mkStar]
      · simp [mkStar]
      · have h := ih (off + 2) j' (by omega)
        simp only [List.getD_cons_succ]
        exact ⟨h.1, by rw [h.2.1]; omega, by rw [h.2.2.1]; omega, h.2.2.2⟩
    · rw [assembleGo_big_unit] at hj ⊢; exact ih off j hj

/-- Inversion structure of every assembled star, for valid units. -/
theorem assembleGo_invSpec (dims : List ℕ) (a : ℚ) :
    ∀ (us : List (List (List ℕ))) (off : ℕ),
      (∀ u ∈ us, UnitValid dims u) →
      ∀ j, j < (assembleGo dims a us off).2.length →
      InvSpec dims (assembleGo dims a us off).1 (assembleGo dims a us off).2 j := by
  intro us
  induction us with
  | nil => intro off _ j hj; rw [assembleGo_nil] at hj; simp at hj
  | cons u us ih =>
    intro off hval j hj
    have hvu : UnitValid dims u := hval u (List.mem_cons_self u us)
    have hvus : ∀ u' ∈ us, UnitValid dims u' :=
      fun u' hu' => hval u' (List.mem_cons_of_mem u hu')
    rcases u with _ | ⟨k1, _ | ⟨k2, _ | ⟨k3, tl⟩⟩⟩
    · rw [assembleGo_empty_unit] at hj ⊢; exact ih off hvus j hj
    · -- singleton unit, one closed star
      have hclosed : negW dims k1 = k1 := by
        rcases hvu with ⟨k, hk, hnk⟩ | ⟨k, hk, _, _, _⟩
        · injection hk with h1 _; rw [h1]; exact hnk
        · simp at hk
      rw [assembleGo_single] at hj ⊢
      simp only [List.length_cons] at hj
      rcases j with _ | j'
      · left
        exact ⟨by simp [mkStar], by simp [mkWave, hclosed]⟩
      · have hspec := ih (off + 1) hvus j' (by omega)
        unfold InvSpec at hspec ⊢
        rcases hspec with ⟨hf, hcl⟩ | ⟨hf, hlt, hf2, hw1, hw2, hne, hnm⟩ |
          ⟨hf, hge, hf2, hw1, hw2, hne⟩
        · left
          exact ⟨by simpa [List.getD_cons_succ] using hf,
                 by simpa [List.getD_cons_succ] using hcl⟩
        · right; left
          refine ⟨by simpa using hf, by simp only [List.length_cons]; omega,
            by simpa using hf2, by simpa using hw1, by simpa using hw2,
            by simpa using hne, by simpa using hnm⟩
        · right; right
          obtain ⟨j'', rfl⟩ : ∃ j'', j' = j'' + 1 := ⟨j' - 1, by omega⟩
          simp only [Nat.add_sub_cancel] at hf2 hw1 hw2 ⊢
          refine ⟨by simpa using hf, by omega, by simpa using hf2,
            by simpa using hw1, by simpa using hw2, by simpa using hne⟩
    · -- pair unit, two adjacent stars
      have hvp : ∃ k, ([k1, k2] : List (List ℕ)) = [k, negW dims k] ∧
          negW dims (negW dims k) = k ∧ negW dims k ≠ k ∧
          normSqZ dims (negW dims k) = normSqZ dims k := by
        rcases hvu with ⟨k, hk, _⟩ | h
        · simp at hk
        · exact h
      obtain ⟨k, hk, hinv, hne, hnm⟩ := hvp
      have hk1 : k1 = k := by injection hk
      have hk2 : k2 = negW dims k := by
        injection hk with _ h2; injection h2
      subst hk1
      subst hk2
      rw [assembleGo_pair] at hj ⊢
      simp only [List.length_cons] at hj
      rcases j with _ | (_ | j')
      · right; left
        refine ⟨by simp [mkStar], by simp only [List.length_cons]; omega,
          by simp [mkStar], by simp [mkWave], by simp [mkWave, hinv],
          by simpa [mkWave] using hne, by simpa [mkWave] using hnm⟩
      · right; right
        refine ⟨by simp [mkStar], le_refl 1, by simp [mkStar],
          by simp [mkWave], by simp [mkWave, hinv], ?_⟩
        simp only [mkWave, List.getD_cons_succ, List.getD_cons_zero]
        rw [hinv]
        exact fun hh => hne (hh.symm)
      · have hspec := ih (off + 2) hvus j' (by omega)
        unfold InvSpec at hspec ⊢
        rcases hspec with ⟨hf, hcl⟩ | ⟨hf, hlt, hf2, hw1, hw2, hne2, hnm2⟩ |
          ⟨hf, hge, hf2, hw1, hw2, hne2⟩
        · left
          exact ⟨by simpa using hf, by simpa using hcl⟩
        · right; left
          refine ⟨by simpa using hf, by simp only [List.length_cons]; omega,
            by simpa using hf2, by simpa using hw1, by simpa using hw2,
            by simpa using hne2, by simpa using hnm2⟩
        · right; right
          obtain ⟨j'', rfl⟩ : ∃ j'', j' = j'' + 1 := ⟨j' - 1, by omega⟩
          simp only [Nat.add_sub_cancel] at hf2 hw1 hw2 ⊢
          refine ⟨by simpa using hf, by omega, by simpa using hf2,
            by simpa using hw1, by simpa using hw2, by simpa using hne2⟩
    · rw [assembleGo_big_unit] at hj ⊢; exact ih off hvus j hj

theorem getD_ge {α : Type} (l : List α) (i : ℕ) (d : α) (h : l.length ≤ i) :
    l.getD i d = d := by
  rw [List.getD_eq_getElem?_getD, List.getElem?_eq_none h]
  rfl

theorem getD_eq_get {α : Type} (l : List α) (i : ℕ) (h : i < l.length) (d : α) :
    l.getD i d = l.get ⟨i, h⟩ := by
  rw [List.getD_eq_getElem?_getD, List.getElem?_eq_getElem h, List.get_eq_getElem]
  rfl

theorem fillPartners_length (dims : List ℕ) (ws : List Wave) :
    (fillPartners dims ws).length = ws.length := List.length_map _ _

/-- The partner-filling pass does not change a wave's indices. -/
theorem fillPartners_indices (dims : List ℕ) (ws : List Wave) (i : ℕ) :
    ((fillPartners dims ws).getD i default).indicesDft =
      (ws.getD i default).indicesDft := by
  by_cases h : i < ws.length
  · rw [fillPartners, getD_map_lt ws _ i h default default]
  · rw [fillPartners, getD_ge _ _ _ (by simpa using Nat.le_of_not_lt h),
        getD_ge _ _ _ (Nat.le_of_not_lt h)]

/-- The partner-filling pass does not change a wave's squared norm. -/
theorem fillPartners_sqNorm (dims : List ℕ) (ws : List Wave) (i : ℕ) :
    ((fillPartners dims ws).getD i default).sqNorm = (ws.getD i default).sqNorm := by
  by_cases h : i < ws.length
  · rw [fillPartners, getD_map_lt ws _ i h default default]
  · rw [fillPartners, getD_ge _ _ _ (by simpa using Nat.le_of_not_lt h),
        getD_ge _ _ _ (Nat.le_of_not_lt h)]

theorem makeBasis_stars (dims : List ℕ) (a : ℚ) :
    (makeBasis dims a).stars =
      (assembleGo dims a ((buildUnits dims).insertionSort (unitGE dims)) 0).2 := rfl

theorem makeBasis_waves (dims : List ℕ) (a : ℚ) :
    (makeBasis dims a).waves =
      fillPartners dims
        (assembleGo dims a ((buildUnits dims).insertionSort (unitGE dims)) 0).1 := rfl

theorem makeBasis_nStar_eq (dims : List ℕ) (a : ℚ) :
    (makeBasis dims a).nStar = (makeBasis dims a).stars.length := rfl

theorem makeBasis_nWave_eq (dims : List ℕ) (a : ℚ) :
    (makeBasis dims a).nWave = (makeBasis dims a).waves.length := rfl

/-- Every star of the modelled identity basis is a singleton whose wave
sits at the star's own index. -/
theorem starVectors_makeBasis (dims : List ℕ) (a : ℚ) (j : ℕ)
    (hj : j < (makeBasis dims a).nStar) :
    starVectors (makeBasis dims a) j =
      [((makeBasis dims a).waves.getD j default).indicesDft] := by
  have hf := assembleGo_star_fields dims a
    ((buildUnits dims).insertionSort (unitGE dims)) 0 j hj
  rw [← makeBasis_stars] at hf
  simp only [starVectors, hf.1, hf.2.1, show List.range 1 = [0] from rfl,
    List.map_cons, List.map_nil]
  norm_num

/-- C7: for every star of a built basis, a wavevector set closed under
inversion gets `invertFlag = 0`; otherwise the star belongs to an
adjacent pair, the first member with `invertFlag = +1` and the second
with `invertFlag = -1`, whose wavevector sets are exact inversion images
of each other. -/
theorem star_inversion_pairing (dims : List ℕ) (a : ℚ) (j : ℕ)
    (hj : j < (makeBasis dims a).nStar) :
    ((starVectors (makeBasis dims a) j).map (negW dims) =
        starVectors (makeBasis dims a) j →
      ((makeBasis dims a).stars.getD j default).invertFlag = 0) ∧
    ((starVectors (makeBasis dims a) j).map (negW dims) ≠
        starVectors (makeBasis dims a) j →
      ((((makeBasis dims a).stars.getD j default).invertFlag = 1 ∧
        j + 1 < (makeBasis dims a).nStar ∧
        ((makeBasis dims a).stars.getD (j+1) default).invertFlag = -1 ∧
        starVectors (makeBasis dims a) (j+1) =
          (starVectors (makeBasis dims a) j).map (negW dims) ∧
        starVectors (makeBasis dims a) j =
          (starVectors (makeBasis dims a) (j+1)).map (negW dims)) ∨
       (((makeBasis dims a).stars.getD j default).invertFlag = -1 ∧ 1 ≤ j ∧
        ((makeBasis dims a).stars.getD (j-1) default).invertFlag = 1 ∧
        starVectors (makeBasis dims a) j =
          (starVectors (makeBasis dims a) (j-1)).map (negW dims) ∧
        starVectors (makeBasis dims a) (j-1) =
          (starVectors (makeBasis dims a) j).map (negW dims)))) := by
  have hspec := assembleGo_invSpec dims a
    ((buildUnits dims).insertionSort (unitGE dims)) 0
    (sortedUnits_valid dims) j hj
  have hwi : ∀ i : ℕ, ((makeBasis dims a).waves.getD i default).indicesDft =
      ((assembleGo dims a ((buildUnits dims).insertionSort (unitGE dims)) 0).1.getD
        i default).indicesDft :=
    fun i => fillPartners_indices dims _ i
  unfold InvSpec at hspec
  rw [← makeBasis_stars] at hspec
  rcases hspec with ⟨hf, hcl⟩ | ⟨hf, hlt0, hf2, hw1, hw2, hne, _⟩ |
    ⟨hf, hge, hf2, hw1, hw2, hne⟩
  · refine ⟨fun _ => hf, fun hnc => absurd ?_ hnc⟩
    rw [starVectors_makeBasis dims a j hj, List.map_cons, List.map_nil, hwi j, hcl,
      ← hwi j]
  · have hlt : j + 1 < (makeBasis dims a).nStar := hlt0
    have hsvj := starVectors_makeBasis dims a j hj
    have hsvj1 := starVectors_makeBasis dims a (j+1) hlt
    constructor
    · intro hclosed
      exfalso
      rw [hsvj, List.map_cons, List.map_nil, List.cons.injEq] at hclosed
      exact hne (by rw [← hwi j]; exact hclosed.1)
    · intro _
      left
      refine ⟨hf, hlt, hf2, ?_, ?_⟩
      · rw [hsvj, hsvj1, List.map_cons, List.map_nil, hwi j, hwi (j+1), hw1]
      · rw [hsvj, hsvj1, List.map_cons, List.map_nil, hwi j, hwi (j+1), hw2]
  · have hjm : j - 1 < (makeBasis dims a).nStar := lt_of_le_of_lt (by omega) hj
    have hsvj := starVectors_makeBasis dims a j hj
    have hsvjm := starVectors_makeBasis dims a (j-1) hjm
    constructor
    · intro hclosed
      exfalso
      rw [hsvj, List.map_cons, List.map_nil, List.cons.injEq] at hclosed
      exact hne (by rw [← hwi j]; exact hclosed.1)
    · intro _
      right
      refine ⟨hf, hge, hf2, ?_, ?_⟩
      · rw [hsvj, hsvjm, List.map_cons, List.map_nil, hwi j, hwi (j-1), hw1]
      · rw [hsvj, hsvjm, List.map_cons, List.map_nil, hwi j, hwi (j-1), hw2]

/-- Witness for C7: star 1 of the 4x4 identity basis is the first member
of an inversion pair. -/
theorem star_inversion_pairing_witness :
    (1 < (makeBasis [4, 4] 1).nStar) ∧
    (((starVectors (makeBasis [4, 4] 1) 1).map (negW [4, 4]) =
        starVectors (makeBasis [4, 4] 1) 1 →
      ((makeBasis [4, 4] 1).stars.getD 1 default).invertFlag = 0) ∧
     ((starVectors (makeBasis [4, 4] 1) 1).map (negW [4, 4]) ≠
        starVectors (makeBasis [4, 4] 1) 1 →
      ((((makeBasis [4, 4] 1).stars.getD 1 default).invertFlag = 1 ∧
        1 + 1 < (makeBasis [4, 4] 1).nStar ∧
        ((makeBasis [4, 4] 1).stars.getD (1+1) default).invertFlag = -1 ∧
        starVectors (makeBasis [4, 4] 1) (1+1) =
          (starVectors (makeBasis [4, 4] 1) 1).map (negW [4, 4]) ∧
        starVectors (makeBasis [4, 4] 1) 1 =
          (starVectors (makeBasis [4, 4] 1) (1+1)).map (negW [4, 4])) ∨
       (((makeBasis [4, 4] 1).stars.getD 1 default).invertFlag = -1 ∧ 1 ≤ 1 ∧
        ((makeBasis [4, 4] 1).stars.getD (1-1) default).invertFlag = 1 ∧
        starVectors (makeBasis [4, 4] 1) 1 =
          (starVectors (makeBasis [4, 4] 1) (1-1)).map (negW [4, 4]) ∧
        starVectors (makeBasis [4, 4] 1) (1-1) =
          (starVectors (makeBasis [4, 4] 1) 1).map (negW [4, 4]))))) :=
  ⟨by with_unfolding_all decide,
   star_inversion_pairing [4, 4] 1 1 (by with_unfolding_all decide)⟩

/-- Every assembled wave comes from some unit and stores the squared
norm of its own wavevector. -/
theorem assembleGo_waves_facts (dims : List ℕ) (a : ℚ) :
    ∀ (us : List (List (List ℕ))) (off : ℕ) (w : Wave),
      w ∈ (assembleGo dims a us off).1 →
      (∃ u ∈ us, w.indicesDft ∈ u) ∧ w.sqNorm = sqNormQ a dims w.indicesDft := by
  intro us
  induction us with
  | nil => intro off w hw; rw [assembleGo_nil] at hw; simp at hw
  | cons u us ih =>
    intro off w hw
    rcases u with _ | ⟨k1, _ | ⟨k2, _ | ⟨k3, tl⟩⟩⟩
    · rw [assembleGo_empty_unit] at hw
      obtain ⟨⟨u', hu', hm⟩, hs⟩ := ih off w hw
      exact ⟨⟨u', List.mem_cons_of_mem _ hu', hm⟩, hs⟩
    · rw [assembleGo_single] at hw
      rcases List.mem_cons.mp hw with rfl | hw'
      · exact ⟨⟨[k1], List.mem_cons_self _ _, by simp [mkWave]⟩, by simp [mkWave]⟩
      · obtain ⟨⟨u', hu', hm⟩, hs⟩ := ih (off+1) w hw'
        exact ⟨⟨u', List.mem_cons_of_mem _ hu', hm⟩, hs⟩
    · rw [assembleGo_pair] at hw
      rcases List.mem_cons.mp hw with rfl | hw'
      · exact ⟨⟨[k1, k2], List.mem_cons_self _ _, by simp [mkWave]⟩, by simp [mkWave]⟩
      · rcases List.mem_cons.mp hw' with rfl | hw''
        · exact ⟨⟨[k1, k2], List.mem_cons_self _ _, by simp [mkWave]⟩,
            by simp [mkWave]⟩
        · obtain ⟨⟨u', hu', hm⟩, hs⟩ := ih (off+2) w hw''
          exact ⟨⟨u', List.mem_cons_of_mem _ hu', hm⟩, hs⟩
    · rw [assembleGo_big_unit] at hw
      obtain ⟨⟨u', hu', hm⟩, hs⟩ := ih off w hw
      exact ⟨⟨u', List.mem_cons_of_mem _ hu', hm⟩, hs⟩

/-- All wavevectors of a valid unit share the squared norm of the unit's
leading wavevector. -/
theorem unitValid_norm (dims : List ℕ) (u : List (List ℕ))
    (hv : UnitValid dims u) :
    ∀ k ∈ u, normSqZ dims k = normSqZ dims (u.headD []) := by
  rcases hv with ⟨k0, rfl, _⟩ | ⟨k0, rfl, _, _, hnm⟩
  · intro k hk
    simp at hk
    subst hk
    rfl
  · intro k hk
    rcases List.mem_cons.mp hk with rfl | hk'
    · rfl
    · simp at hk'
      subst hk'
      simpa using hnm

/-- The waves assembled from valid, sorted units have non-increasing
integer squared norms. -/
theorem assembleGo_norm_sorted (dims : List ℕ) (a : ℚ) :
    ∀ (us : List (List (List ℕ))) (off : ℕ),
      (∀ u ∈ us, UnitValid dims u) → List.Sorted (unitGE dims) us →
      List.Pairwise
        (fun w1 w2 => normSqZ dims w2.indicesDft ≤ normSqZ dims w1.indicesDft)
        (assembleGo dims a us off).1 := by
  intro us
  induction us with
  | nil => intro off _ _; rw [assembleGo_nil]; exact List.Pairwise.nil
  | cons u us ih =>
    intro off hval hsort
    have hvu := hval u (List.mem_cons_self u us)
    have hvus : ∀ u' ∈ us, UnitValid dims u' :=
      fun u' hu' => hval u' (List.mem_cons_of_mem u hu')
    have hrel : ∀ v ∈ us, unitGE dims u v := (List.sorted_cons.mp hsort).1
    have hsort' : List.Sorted (unitGE dims) us := (List.sorted_cons.mp hsort).2
    have hbound : ∀ (off' : ℕ) (w' : Wave), w' ∈ (assembleGo dims a us off').1 →
        normSqZ dims w'.indicesDft ≤ normSqZ dims (u.headD []) := by
      intro off' w' hw'
      obtain ⟨⟨u', hu', hm⟩, _⟩ := assembleGo_waves_facts dims a us off' w' hw'
      have h1 := unitValid_norm dims u' (hvus u' hu') w'.indicesDft hm
      have h2 := hrel u' hu'
      unfold unitGE at h2
      omega
    rcases u with _ | ⟨k1, _ | ⟨k2, _ | ⟨k3, tl⟩⟩⟩
    · rw [assembleGo_empty_unit]; exact ih off hvus hsort'
    · rw [assembleGo_single]
      refine List.Pairwise.cons ?_ (ih (off+1) hvus hsort')
      intro w' hw'
      simpa [mkWave] using hbound (off+1) w' hw'
    · have hnmu : normSqZ dims k2 = normSqZ dims k1 := by
        simpa using unitValid_norm dims _ hvu k2 (by simp)
      rw [assembleGo_pair]
      refine List.Pairwise.cons ?_ (List.Pairwise.cons ?_ (ih (off+2) hvus hsort'))
      · intro w' hw'
        rcases List.mem_cons.mp hw' with rfl | hw''
        · simp [mkWave, hnmu]
        · simpa [mkWave] using hbound (off+2) w' hw''
      · intro w' hw'
        have h1 := hbound (off+2) w' hw'
        simp only [mkWave] at h1 ⊢
        rw [hnmu]
        simpa using h1
    · rw [assembleGo_big_unit]; exact ih off hvus hsort'

/-- The star-sorted units fed to the assembly pass are sorted by
non-increasing leading squared norm. -/
theorem sortedUnits_sorted (dims : List ℕ) :
    List.Sorted (unitGE dims) ((buildUnits dims).insertionSort (unitGE dims)) :=
  List.sorted_insertionSort (unitGE dims) (buildUnits dims)

/-- Each wave of the modelled basis stores the squared norm of its own
wavevector. -/
theorem makeBasis_wave_sqNorm (dims : List ℕ) (a : ℚ) (i : ℕ)
    (hi : i < (makeBasis dims a).nWave) :
    ((makeBasis dims a).waves.getD i default).sqNorm =
      sqNormQ a dims ((makeBasis dims a).waves.getD i default).indicesDft := by
  have hi' : i < (assembleGo dims a
      ((buildUnits dims).insertionSort (unitGE dims)) 0).1.length := by
    have := hi
    rw [makeBasis_nWave_eq, makeBasis_waves, fillPartners_length] at this
    exact this
  have hmem : (assembleGo dims a
      ((buildUnits dims).insertionSort (unitGE dims)) 0).1.getD i default ∈
      (assembleGo dims a ((buildUnits dims).insertionSort (unitGE dims)) 0).1 := by
    rw [getD_eq_get _ _ hi']
    exact List.get_mem _ _ hi'
  have hfact := (assembleGo_waves_facts dims a
    ((buildUnits dims).insertionSort (unitGE dims)) 0 _ hmem).2
  rw [makeBasis_waves, fillPartners_sqNorm, fillPartners_indices]
  exact hfact

/-- The modelled basis has as many waves as stars. -/
theorem makeBasis_nWave_nStar (dims : List ℕ) (a : ℚ) :
    (makeBasis dims a).nWave = (makeBasis dims a).nStar := by
  rw [makeBasis_nWave_eq, makeBasis_waves, fillPartners_length, assembleGo_length]
  rfl

/-- C8 counterexample: in the built 4x4 identity basis, consecutive
equal-norm stars are ordered neither by lexicographically descending nor
by lexicographically ascending characteristic wavevectors, so the
claimed lexicographic tie-break does not hold as stated. -/
theorem star_order_tie_not_lex :
    ¬ TieLexDesc (makeBasis [4, 4] 1) ∧ ¬ TieLexAsc (makeBasis [4, 4] 1) := by
  with_unfolding_all decide

/-- C8 (amended): after `makeBasis`, stars are globally ordered by
non-increasing squared norm, inversion-paired stars are adjacent with
the `+1` member first and equal squared norms (ties are not broken
lexicographically per star), and `makeDksq` computes each star's
derivative of the representative squared norm reading exactly the
star's single representative wave. -/
theorem makeDksq_order (dims : List ℕ) (a a2 : ℚ) (ha : a ≠ 0) :
    (∀ i, i + 1 < (makeBasis dims a).nWave →
      ((makeBasis dims a).waves.getD (i+1) default).sqNorm ≤
      ((makeBasis dims a).waves.getD i default).sqNorm) ∧
    (∀ j, ((makeBasis dims a).stars.getD j default).invertFlag = 1 →
      j + 1 < (makeBasis dims a).nStar ∧
      ((makeBasis dims a).stars.getD (j+1) default).invertFlag = -1 ∧
      ((makeBasis dims a).waves.getD (j+1) default).sqNorm =
        ((makeBasis dims a).waves.getD j default).sqNorm) ∧
    (makeDksq (makeBasis dims a) dims a2).length = (makeBasis dims a).nStar ∧
    (∀ j, j < (makeBasis dims a).nStar →
      (makeDksq (makeBasis dims a) dims a2).getD j 0 =
        dSqNormQ a2 dims ((starVectors (makeBasis dims a) j).headD [])) := by
  have haa : (0:ℚ) < a * a := mul_self_pos.mpr ha
  have hpw := assembleGo_norm_sorted dims a
    ((buildUnits dims).insertionSort (unitGE dims)) 0
    (sortedUnits_valid dims) (sortedUnits_sorted dims)
  have hidx : ∀ i : ℕ, ((makeBasis dims a).waves.getD i default).indicesDft =
      ((assembleGo dims a ((buildUnits dims).insertionSort (unitGE dims)) 0).1.getD
        i default).indicesDft :=
    fun i => fillPartners_indices dims _ i
  refine ⟨?_, ?_, ?_, ?_⟩
  · intro i hi
    have hi1 : i + 1 < (assembleGo dims a
        ((buildUnits dims).insertionSort (unitGE dims)) 0).1.length := by
      have := hi
      rw [makeBasis_nWave_eq, makeBasis_waves, fillPartners_length] at this
      exact this
    have hi0 : i < (assembleGo dims a
        ((buildUnits dims).insertionSort (unitGE dims)) 0).1.length := by omega
    have hz := (List.pairwise_iff_get.mp hpw) ⟨i, hi0⟩ ⟨i+1, hi1⟩
      (by exact Nat.lt_succ_self i)
    rw [← getD_eq_get _ _ hi0 default, ← getD_eq_get _ _ hi1 default] at hz
    rw [makeBasis_wave_sqNorm dims a i (by omega),
        makeBasis_wave_sqNorm dims a (i+1) hi, hidx i, hidx (i+1)]
    unfold sqNormQ
    exact (div_le_div_iff_of_pos_right haa).mpr (Int.cast_le.mpr hz)
  · intro j hflag
    by_cases hj : j < (makeBasis dims a).nStar
    · have hspec := assembleGo_invSpec dims a
        ((buildUnits dims).insertionSort (unitGE dims)) 0
        (sortedUnits_valid dims) j hj
      unfold InvSpec at hspec
      rw [← makeBasis_stars] at hspec
      rcases hspec with ⟨hf, _⟩ | ⟨hf, hlt, hf2, hw1, hw2, hne, hnm⟩ |
        ⟨hf, _, _, _, _, _⟩
      · rw [hf] at hflag; exact absurd hflag (by decide)
      · have hlt' : j + 1 < (makeBasis dims a).nStar := hlt
        refine ⟨hlt', hf2, ?_⟩
        have hjn : j + 1 < (makeBasis dims a).nWave := by
          rw [makeBasis_nWave_nStar]; exact hlt'
        rw [makeBasis_wave_sqNorm dims a j (by rw [makeBasis_nWave_nStar]; omega),
            makeBasis_wave_sqNorm dims a (j+1) hjn, hidx j, hidx (j+1)]
        unfold sqNormQ
        rw [hnm]
      · rw [hf] at hflag; exact absurd hflag (by decide)
    · exfalso
      have hd : (makeBasis dims a).stars.getD j default = default :=
        getD_ge _ _ _ (Nat.le_of_not_lt hj)
      rw [hd] at hflag
      exact absurd hflag (by decide)
  · show ((makeBasis dims a).stars.map _).length = _
    rw [List.length_map]
    rfl
  · intro j hj
    have hf := assembleGo_star_fields dims a
      ((buildUnits dims).insertionSort (unitGE dims)) 0 j hj
    rw [← makeBasis_stars] at hf
    have hjs : j < (makeBasis dims a).stars.length := hj
    show ((makeBasis dims a).stars.map _).getD j 0 = _
    rw [getD_map_lt _ _ j hjs 0 default, starVectors_makeBasis dims a j hj]
    simp only [List.headD_cons]
    have hrep : repId ((makeBasis dims a).stars.getD j default) = j := by
      unfold repId
      by_cases hfl : ((makeBasis dims a).stars.getD j default).invertFlag = -1
      · rw [if_pos hfl, hf.2.2.1]; omega
      · rw [if_neg hfl, hf.2.1]; omega
    rw [hrep]

/-- Witness for C8 (amended): the 4x4 identity basis with unit cell
parameter one and derivative parameter two. -/
theorem makeDksq_order_witness :
    ((1:ℚ) ≠ 0) ∧
    ((∀ i, i + 1 < (makeBasis [4, 4] 1).nWave →
      ((makeBasis [4, 4] 1).waves.getD (i+1) default).sqNorm ≤
      ((makeBasis [4, 4] 1).waves.getD i default).sqNorm) ∧
    (∀ j, ((makeBasis [4, 4] 1).stars.getD j default).invertFlag = 1 →
      j + 1 < (makeBasis [4, 4] 1).nStar ∧
      ((makeBasis [4, 4] 1).stars.getD (j+1) default).invertFlag = -1 ∧
      ((makeBasis [4, 4] 1).waves.getD (j+1) default).sqNorm =
        ((makeBasis [4, 4] 1).waves.getD j default).sqNorm) ∧
    (makeDksq (makeBasis [4, 4] 1) [4, 4] 2).length = (makeBasis [4, 4] 1).nStar ∧
    (∀ j, j < (makeBasis [4, 4] 1).nStar →
      (makeDksq (makeBasis [4, 4] 1) [4, 4] 2).getD j 0 =
        dSqNormQ 2 [4, 4] ((starVectors (makeBasis [4, 4] 1) j).headD []))) :=
  ⟨by norm_num, makeDksq_order [4, 4] 1 2 (by norm_num)⟩

/-- C9: on a 4x4 two-dimensional mesh with the identity-only group,
`makeBasis` yields `nWave() == nStar() == 16`, every star is a singleton,
no star is cancelled, and the coefficient vector that is zero except at
the origin star (the star whose single wavevector is the origin, stored
last) survives the conversion round trip unchanged. -/
theorem mesh44_identity_baseline :
    (makeBasis [4, 4] 1).nWave = 16 ∧
    (makeBasis [4, 4] 1).nStar = 16 ∧
    (∀ s ∈ (makeBasis [4, 4] 1).stars, s.size = 1 ∧ s.cancel = false) ∧
    ((makeBasis [4, 4] 1).waves.getD 15 default).indicesDft = [0, 0] ∧
    ((makeBasis [4, 4] 1).stars.getD 15 default).beginId = 15 ∧
    Basis.convertFieldDftToComponents (makeBasis [4, 4] 1)
      (Basis.convertFieldComponentsToDft (makeBasis [4, 4] 1)
        (List.replicate 15 0 ++ [7])) = List.replicate 15 0 ++ [7] := by
  with_unfolding_all decide

end Pscf
